import Mathlib

/-!
Verification development for the PigeonFS storage layer.

Shallow embedding of the storage engine of the repository:
`src/storage/PagingStorage.js` (page store: setLocal/getLocal/deleteLocal,
splitPage, attemptPageMerge, mergePages, deletePage, getEntrySize),
`src/storage/WebDHTAdapter.js` (routeGet/routeSet/routeDelete tombstones),
`src/storage/PeerSynchronization.js` (handlePageUpdate, handlePageDelete),
and `ChunkStorage.js` (storeFile/storeAsChunks/storeChunk/getChunk/
assembleFromChunks/evictChunksForSpace, quota accounting).

JavaScript `Map`s are embedded as association lists in insertion order
(`Map.set` updates in place, otherwise appends; `Map.delete` removes the
unique entry). JavaScript numbers are embedded as `Int`/`Nat` (all the
quantities involved are integral and far below 2^53, where double
arithmetic is exact). File bytes are embedded as `List Nat`.
-/

namespace PigeonFS

/-! ### JavaScript values

Page entries and DHT records hold arbitrary JSON-like values. `JSValue.null`
is JavaScript `null`; JavaScript `undefined` is represented as `Option.none`
at the boundaries where the source can observe it (absent map entries,
missing arguments). -/

inductive JSValue : Type where
  | str (s : String)
  | num (n : Int)
  | bool (b : Bool)
  | null
  | obj (fields : List (String × JSValue))

/-- Truthiness of a JavaScript value: `""`, `0`, `false`, `null` are falsy,
objects are always truthy. -/
def truthy : JSValue → Bool
  | .str s => !s.isEmpty
  | .num n => decide (n ≠ 0)
  | .bool b => b
  | .null => false
  | .obj _ => true

/-- Truthiness of a possibly-`undefined` value (`undefined` is falsy). -/
def truthyOpt : Option JSValue → Bool
  | none => false
  | some v => truthy v

/-! ### JavaScript `Map` operations on association lists -/

/-- Lookup in a JS `Map` (`m.get(k)`, `undefined` when absent). -/
def mapGet {α : Type} (m : List (String × α)) (k : String) : Option α :=
  match m with
  | [] => none
  | (k', v) :: rest => if k' = k then some v else mapGet rest k

/-- Insertion into a JS `Map` (`m.set(k, v)`): updates the existing entry in
place, otherwise appends at the end. -/
def mapSet {α : Type} (m : List (String × α)) (k : String) (v : α) :
    List (String × α) :=
  match m with
  | [] => [(k, v)]
  | (k', v') :: rest =>
      if k' = k then (k', v) :: rest else (k', v') :: mapSet rest k v

/-- Deletion from a JS `Map` (`m.delete(k)`); keys in a `Map` are unique, so
removing the first occurrence is removal of the entry. -/
def mapDelete {α : Type} (m : List (String × α)) (k : String) :
    List (String × α) :=
  match m with
  | [] => []
  | (k', v') :: rest =>
      if k' = k then rest else (k', v') :: mapDelete rest k

theorem mapGet_mapSet_self {α : Type} (m : List (String × α)) (k : String)
    (v : α) : mapGet (mapSet m k v) k = some v := by
  induction m with
  | nil => simp [mapGet, mapSet]
  | cons hd tl ih =>
      obtain ⟨k', v'⟩ := hd
      by_cases h : k' = k <;> simp [mapGet, mapSet, h, ih]

theorem mapGet_mapSet_ne {α : Type} (m : List (String × α)) (k k' : String)
    (v : α) (h : k ≠ k') : mapGet (mapSet m k v) k' = mapGet m k' := by
  induction m with
  | nil => simp [mapGet, mapSet, h]
  | cons hd tl ih =>
      obtain ⟨k₀, v₀⟩ := hd
      by_cases h₀ : k₀ = k
      · subst h₀; simp [mapGet, mapSet, h]
      · simp only [mapSet, if_neg h₀]
        by_cases h₁ : k₀ = k' <;> simp [mapGet, h₁, ih]

/-- Property access `v.name` on a JavaScript value: a field of an object,
`undefined` otherwise. -/
def getField (v : JSValue) (name : String) : Option JSValue :=
  match v with
  | .obj fields => mapGet fields name
  | _ => none

/-! ### WebDHTAdapter (src/storage/WebDHTAdapter.js)

The adapter delegates raw `get`/`put` to PeerPigeon's WebDHT, an external
collaborator of this repository (the mesh layer). The external DHT is
embedded as a key-value map with round-trip fidelity (`get` after `put`
returns the stored value), which is the capability the adapter consumes. -/

/-- Backing store of the external WebDHT, as observed through `put`/`get`. -/
def WebStore : Type := List (String × JSValue)

def webGet (st : WebStore) (k : String) : Option JSValue := mapGet st k

def webPut (st : WebStore) (k : String) (v : JSValue) : WebStore :=
  mapSet st k v

/-- Tombstone object `\x7b __deleted: true, ts \x7d` written by
`routeSet`/`routeDelete` for deletions. -/
def tombstone (ts : Int) : JSValue :=
  .obj [("__deleted", .bool true), ("ts", .num ts)]

/-- Guard `value && value.__deleted` of `routeGet`: the value is truthy and
its `__deleted` property is truthy. -/
def jsDeleted (v : JSValue) : Bool :=
  truthy v &&
    (match getField v "__deleted" with
     | some f => truthy f
     | none => false)

/-- WebDHTAdapter.routeGet: reads the key from the WebDHT and hides
tombstoned values (`if (value && value.__deleted) return undefined`). -/
def routeGet (st : WebStore) (k : String) : Option JSValue :=
  match webGet st k with
  | none => none
  | some v => if jsDeleted v then none else some v

/-- WebDHTAdapter.routeSet: an `undefined` value is replaced by a tombstone
(`value === undefined ? \x7b __deleted: true, ts: Date.now() \x7d : value`)
before the `put`; `ts` is the current time. -/
def routeSet (st : WebStore) (k : String) (value : Option JSValue)
    (ts : Int) : WebStore :=
  let payload := match value with
    | none => tombstone ts
    | some v => v
  webPut st k payload

/-- WebDHTAdapter.routeDelete: writes a tombstone for the key and returns
`true`. -/
def routeDelete (ts : Int) (st : WebStore) (k : String) : Bool × WebStore :=
  (true, webPut st k (tombstone ts))

/-! ### theorems for C4, C9, C10 -/

theorem webGet_webPut_self (st : WebStore) (k : String) (v : JSValue) :
    webGet (webPut st k v) k = some v :=
  mapGet_mapSet_self st k v

theorem jsDeleted_tombstone (ts : Int) : jsDeleted (tombstone ts) = true := by
  simp [jsDeleted, tombstone, truthy, getField, mapGet]

/-- C9: deleting a key writes a tombstone object (the raw store still holds
an entry for the key, it is not physically removed), a subsequent `routeGet`
of the key returns `undefined`, and `routeGet` never returns a value whose
`__deleted` marker is set. -/
theorem delete_then_get_absent (st : WebStore) (k k' : String) (ts : Int) :
    webGet (routeDelete ts st k).2 k = some (tombstone ts) ∧
    routeGet (routeDelete ts st k).2 k = none ∧
    (routeGet st k').all (fun v => !jsDeleted v) = true := by
  refine ⟨webGet_webPut_self st k (tombstone ts), ?_, ?_⟩
  · unfold routeGet routeDelete
    simp [webGet_webPut_self, jsDeleted_tombstone]
  · unfold routeGet
    cases h : webGet st k' with
    | none => simp
    | some v =>
        by_cases hd : jsDeleted v = true <;> simp [hd]

/-- C10: the facade `set(key, undefined)` does not store `undefined`: it
writes a tombstone object in its place, so a subsequent `get(key)` returns
`undefined`; a defined value is stored as given. -/
theorem set_undefined_is_tombstone (st : WebStore) (k : String) (v : JSValue)
    (ts : Int) :
    webGet (routeSet st k none ts) k = some (tombstone ts) ∧
    routeGet (routeSet st k none ts) k = none ∧
    webGet (routeSet st k (some v) ts) k = some v := by
  refine ⟨webGet_webPut_self st k (tombstone ts), ?_,
    webGet_webPut_self st k v⟩
  unfold routeGet routeSet
  simp [webGet_webPut_self, jsDeleted_tombstone]

/-- C4, counterexample: on an empty store no local value exists for key
`"k"`, yet `routeDelete` returns `true` — the claim that it returns `false`
when no local value existed is false on the code. -/
theorem routeDelete_true_without_prior_value :
    webGet ([] : WebStore) "k" = none ∧
    (routeDelete 7 ([] : WebStore) "k").1 = true := by
  constructor <;> rfl

/-- C4, amended: the facade delete unconditionally returns `true` and leaves
the key tombstoned (reading it back yields `undefined`), regardless of
whether a value existed before the delete. -/
theorem routeDelete_always_true (st : WebStore) (k : String) (ts : Int) :
    (routeDelete ts st k).1 = true ∧
    routeGet (routeDelete ts st k).2 k = none := by
  refine ⟨rfl, ?_⟩
  unfold routeGet routeDelete
  simp [webGet_webPut_self, jsDeleted_tombstone]

/-! ### Page store (src/storage/PagingStorage.js)

Values are sized by `getEntrySize`; JavaScript string `.length` counts
UTF-16 code units, which within the BMP coincides with codepoint count.
Objects are sized through `JSON.stringify` (the embedding renders strings
unescaped; none of the properties below depend on object byte sizes). -/

mutual

/-- Rendering `JSON.stringify(value)`, used by `getEntrySize` for objects. -/
def jsonStringify : JSValue → String
  | .str s => "\"" ++ s ++ "\""
  | .num n => toString n
  | .bool b => if b then "true" else "false"
  | .null => "null"
  | .obj fields => "\x7b" ++ jsonStringifyFields fields ++ "\x7d"

def jsonStringifyFields : List (String × JSValue) → String
  | [] => ""
  | [(k, v)] => "\"" ++ k ++ "\":" ++ jsonStringify v
  | (k, v) :: rest =>
      "\"" ++ k ++ "\":" ++ jsonStringify v ++ "," ++ jsonStringifyFields rest

end

/-- PagingStorage.getEntrySize: strings cost `2 * length` (UTF-16), numbers
8, booleans 1, `null`/`undefined` 0, anything else twice the length of its
JSON rendering. -/
def getEntrySize : Option JSValue → Int
  | some (.str s) => 2 * s.length
  | some (.num _) => 8
  | some (.bool _) => 1
  | none => 0
  | some .null => 0
  | some (.obj fields) => 2 * (jsonStringify (.obj fields)).length

/-- Cost of an entry `(key, value)` as charged by the source on insert and
delete: `getEntrySize(key) + getEntrySize(value)` with the key a string. -/
def entryCost (k : String) (v : JSValue) : Int :=
  getEntrySize (some (.str k)) + getEntrySize (some v)

/-- Code-unit comparison of character lists, the order JavaScript `<` uses
on strings. -/
def charListLt : List Char → List Char → Bool
  | [], [] => false
  | [], _ :: _ => true
  | _ :: _, [] => false
  | a :: as, b :: bs =>
      if a.toNat < b.toNat then true
      else if b.toNat < a.toNat then false
      else charListLt as bs

/-- JavaScript string order `a <= b` (used to model the ascending order of
`Array.prototype.sort` on strings). -/
def jsStrLe (a b : String) : Bool := !(charListLt b.data a.data)

/-- Rendering of an array element by `Array.prototype.join` (`null` joins as
the empty string, objects as `[object Object]`). -/
def jsStrElem : JSValue → String
  | .str s => s
  | .num n => toString n
  | .bool b => if b then "true" else "false"
  | .null => ""
  | .obj _ => "[object Object]"

/-- String an entry pair `[key, value]` converts to under the default sort
comparator: `key + "," + String(value)`. -/
def entrySortKey (p : String × JSValue) : String := p.1 ++ "," ++ jsStrElem p.2

/-- Sorting `Array.from(page.data.entries()).sort()`: a stable ascending
sort of the `[key, value]` pairs by their string conversions (JavaScript
engines implement `Array.prototype.sort` stably, as does `mergeSort`). -/
def sortEntries (l : List (String × JSValue)) : List (String × JSValue) :=
  l.mergeSort (fun a b => jsStrLe (entrySortKey a) (entrySortKey b))

/-- Page record as created by `createPage` (the leaf unit of the paging
engine). -/
structure Page where
  id : String
  data : List (String × JSValue)
  size : Int
  created : Nat
  lastModified : Nat
  firstKey : Option String
  owner : String
  replicas : List String

/-- State of the page engine observed by the claims: the `pages` map
(pageId to page) and the `pageIndex` map (key to pageId). -/
structure StorageState where
  pages : List (String × Page)
  pageIndex : List (String × String)

/-- PagingStorage.getLocal: `pageIndex` lookup, then entry lookup in the
page; `undefined` when either is missing. -/
def getLocal (st : StorageState) (key : String) : Option JSValue :=
  match mapGet st.pageIndex key with
  | none => none
  | some pid =>
      match mapGet st.pages pid with
      | none => none
      | some page => mapGet page.data key

/-- PagingStorage.deletePage: removes every `pageIndex` entry whose key is
still in the page's data, then removes the page (persistence handled the
same maps; `pageLocations` is not observed by any claim). -/
def deletePage (st : StorageState) (pageId : String) : StorageState :=
  let idx' := match mapGet st.pages pageId with
    | some page => page.data.foldl (fun idx kv => mapDelete idx kv.1) st.pageIndex
    | none => st.pageIndex
  { pages := mapDelete st.pages pageId, pageIndex := idx' }

/-- PagingStorage.mergePages: copies every source entry into the target,
charging `entryCost` and repointing `pageIndex` at the target, then deletes
the source page via `deletePage` (the source's `data` is never cleared
first). Peer broadcasts are not modeled. -/
def mergePages (st : StorageState) (sourceId targetId : String) (now : Nat) :
    StorageState :=
  match mapGet st.pages sourceId, mapGet st.pages targetId with
  | some source, some target =>
      let step := fun (acc : List (String × JSValue) × Int × List (String × String))
          (kv : String × JSValue) =>
        (mapSet acc.1 kv.1 kv.2, acc.2.1 + entryCost kv.1 kv.2,
         mapSet acc.2.2 kv.1 targetId)
      let folded := source.data.foldl step (target.data, target.size, st.pageIndex)
      let target' := { target with data := folded.1, size := folded.2.1,
                                   lastModified := now }
      let st' : StorageState :=
        { pages := mapSet st.pages targetId target', pageIndex := folded.2.2 }
      deletePage st' sourceId
  | _, _ => st

/-- Loop body of `attemptPageMerge`: try each candidate key in order, merge
into the first candidate page that exists, is a different page, and fits
(`candidatePage.size + page.size < pageSize`). -/
def mergeLoop (st : StorageState) (page : Page) (candidates : List String)
    (pageSize : Nat) (now : Nat) : StorageState :=
  match candidates with
  | [] => st
  | candidateKey :: rest =>
      match mapGet st.pageIndex candidateKey with
      | none => mergeLoop st page rest pageSize now
      | some cpid =>
          match mapGet st.pages cpid with
          | none => mergeLoop st page rest pageSize now
          | some cpage =>
              if cpage.id ≠ page.id ∧ cpage.size + page.size < (pageSize : Int) then
                mergePages st page.id cpage.id now
              else mergeLoop st page rest pageSize now

/-- PagingStorage.attemptPageMerge: an empty page is deleted outright;
otherwise the page's first key (after the default entry sort) is located in
the sorted list of all indexed keys and the two neighbouring keys' pages are
tried as merge targets. A missing `indexOf` result is JavaScript `-1`. -/
def attemptPageMerge (st : StorageState) (pageId : String) (pageSize : Nat)
    (now : Nat) : StorageState :=
  match mapGet st.pages pageId with
  | none => st
  | some page =>
      if page.data.isEmpty then deletePage st pageId
      else
        let sortedEntries := sortEntries page.data
        let firstKey := (sortedEntries.headD ("", .null)).1
        let sortedKeys := (st.pageIndex.map Prod.fst).mergeSort jsStrLe
        let keyIndex : Int := match sortedKeys.indexOf? firstKey with
          | some i => (i : Int)
          | none => -1
        let candidates :=
          (if 0 < keyIndex then [sortedKeys.getD (keyIndex - 1).toNat ""] else []) ++
          (if keyIndex < (sortedKeys.length : Int) - 1 then
            [sortedKeys.getD (keyIndex + 1).toNat ""] else [])
        mergeLoop st page candidates pageSize now

/-- PagingStorage.deleteLocal: removes the entry, charges `entryCost` off
the page size, drops the `pageIndex` entry, and, when the page stays
non-empty but falls below the merge threshold (`0.2 * pageSize`; sizes are
integral so the comparison is exact as `10 * size < 2 * pageSize`), attempts
a merge. Returns whether a local value existed. -/
def deleteLocal (st : StorageState) (key : String) (pageSize : Nat)
    (now : Nat) : Bool × StorageState :=
  match mapGet st.pageIndex key with
  | none => (false, st)
  | some pid =>
      match mapGet st.pages pid with
      | none => (false, st)
      | some page =>
          match mapGet page.data key with
          | none => (false, st)
          | some value =>
              let page' := { page with
                data := mapDelete page.data key,
                size := page.size - entryCost key value,
                lastModified := now }
              let st' : StorageState :=
                { pages := mapSet st.pages pid page',
                  pageIndex := mapDelete st.pageIndex key }
              let st'' :=
                if 10 * page'.size < (pageSize : Int) * 2 ∧ 0 < page'.data.length
                then attemptPageMerge st' pid pageSize now
                else st'
              (true, st'')

/-- PeerSynchronization.handlePageUpdate on a held page: the update is
applied when the current value for the key is absent or falsy
(`!currentValue`) or the message timestamp exceeds the page's
`lastModified`; it charges only the value sizes (`newSize - oldSize`, no key
cost) and repoints `pageIndex`. When the receiver does not hold the page the
source may fetch it from the sending peer (network interaction, not
modeled). -/
def handlePageUpdate (st : StorageState) (pageId key : String)
    (value : JSValue) (timestamp : Nat) : StorageState :=
  match mapGet st.pages pageId with
  | none => st
  | some page =>
      if truthyOpt (mapGet page.data key) = false ∨ page.lastModified < timestamp
      then
        let oldSize := getEntrySize (mapGet page.data key)
        let newSize := getEntrySize (some value)
        let page' := { page with
          data := mapSet page.data key value,
          size := page.size + (newSize - oldSize),
          lastModified := max page.lastModified timestamp }
        { pages := mapSet st.pages pageId page',
          pageIndex := mapSet st.pageIndex key pageId }
      else st

/-- PeerSynchronization.handlePageDelete: applied only when the timestamp
beats the page's `lastModified`; with a key it removes that entry (charging
key plus value sizes), without a key it deletes the whole page. -/
def handlePageDelete (st : StorageState) (pageId : String)
    (key : Option String) (timestamp : Nat) : StorageState :=
  match mapGet st.pages pageId with
  | none => st
  | some page =>
      if page.lastModified < timestamp then
        match key with
        | some k =>
            match mapGet page.data k with
            | none => st
            | some value =>
                let page' := { page with
                  data := mapDelete page.data k,
                  size := page.size - entryCost k value,
                  lastModified := max page.lastModified timestamp }
                { pages := mapSet st.pages pageId page',
                  pageIndex := mapDelete st.pageIndex k }
        | none => deletePage st pageId
      else st

/-- PagingStorage.createPage: a fresh empty page owned by this peer. -/
def createPage (peerId newId : String) (now : Nat) (firstKey : Option String) :
    Page :=
  { id := newId, data := [], size := 0, created := now, lastModified := now,
    firstKey := firstKey, owner := peerId, replicas := [peerId] }

/-- Body of splitPage's move loop for one entry `kv`: insert into the new
page and charge it, repoint `pageIndex` at the new page, delete from the
original page and discharge it. The accumulator is
(new page, original page, pageIndex). -/
def splitStep (newId : String)
    (acc : Page × Page × List (String × String)) (kv : String × JSValue) :
    Page × Page × List (String × String) :=
  ({ acc.1 with data := mapSet acc.1.data kv.1 kv.2,
                size := acc.1.size + entryCost kv.1 kv.2 },
   { acc.2.1 with data := mapDelete acc.2.1.data kv.1,
                  size := acc.2.1.size - entryCost kv.1 kv.2 },
   mapSet acc.2.2 kv.1 newId)

/-- PagingStorage.splitPage: no-op on pages with at most one entry;
otherwise the entries are sorted by the default comparator, the upper half
is moved one by one into a fresh page (via `splitStep`), and both pages get
a fresh `lastModified`. Page ids are produced by `generatePageId`
(timestamp plus randomness), embedded as the parameter `newId`. -/
def splitPage (page : Page) (idx : List (String × String))
    (peerId newId : String) (now : Nat) :
    Page × Option Page × List (String × String) :=
  if page.data.length ≤ 1 then (page, none, idx)
  else
    let entries := sortEntries page.data
    let midPoint := entries.length / 2
    let newPage0 := createPage peerId newId now
      (some ((entries.getD midPoint ("", .null)).1))
    let moved := entries.drop midPoint
    let folded := moved.foldl (splitStep newId) (newPage0, page, idx)
    ({ folded.2.1 with lastModified := now },
     some { folded.1 with lastModified := now },
     folded.2.2)

/-! ### theorems for C1, C5, C6 -/

/-- Storage state for the C1 scenario: page `P1` holds keys `a`, `b`
(4 bytes each by `entryCost`), page `P2` holds key `c`; the index covers all
three keys. Deleting `b` leaves `P1` non-empty below the merge threshold. -/
def c1State : StorageState :=
  { pages :=
      [("P1", { id := "P1", data := [("a", .str "x"), ("b", .str "y")],
                size := 8, created := 0, lastModified := 0,
                firstKey := some "a", owner := "me", replicas := ["me"] }),
       ("P2", { id := "P2", data := [("c", .str "z")],
                size := 4, created := 0, lastModified := 0,
                firstKey := some "c", owner := "me", replicas := ["me"] })],
    pageIndex := [("a", "P1"), ("b", "P1"), ("c", "P2")] }

unseal List.merge List.mergeSort in
/-- C1: a local delete of `b` triggers a merge of `P1` into `P2`; the moved
key `a` does end up in `P2`'s data, but `deletePage` (invoked by
`mergePages` on the never-cleared source page) erases the `pageIndex` entry
that the merge just set, so `a` is gone from the index and `getLocal "a"`
returns `undefined` — against the claim and the spec, the merged key's value
is no longer retrievable. -/
theorem mergePages_loses_moved_keys :
    ((mapGet (deleteLocal c1State "b" 4096 50).2.pages "P2").map
        (fun p => mapGet p.data "a")) = some (some (.str "x")) ∧
    mapGet (deleteLocal c1State "b" 4096 50).2.pageIndex "a" = none ∧
    getLocal (deleteLocal c1State "b" 4096 50).2 "a" = none := by
  refine ⟨rfl, rfl, rfl⟩

/-- Page state for the C5 counterexample: the page's `lastModified` is 10
and it has no entry for key `k`. -/
def c5State : StorageState :=
  { pages :=
      [("Q", { id := "Q", data := [], size := 0, created := 0,
               lastModified := 10, firstKey := none, owner := "me",
               replicas := ["me"] })],
    pageIndex := [] }

/-- C5, counterexample: a `PageUpdate` with timestamp 5 arrives at a held
page whose `modified_at` is 10; the timestamp is not newer, yet the entry
for the key is changed (from absent to the update's value), because the
handler also applies updates whenever the current value is absent or falsy
(`!currentValue || timestamp > page.lastModified`). -/
theorem handlePageUpdate_applies_stale_update :
    (5 : Nat) ≤ 10 ∧
    ((mapGet c5State.pages "Q").map (fun p => mapGet p.data "k")) =
      some none ∧
    ((mapGet (handlePageUpdate c5State "Q" "k" (.str "v") 5).pages "Q").map
        (fun p => mapGet p.data "k")) = some (some (.str "v")) := by
  refine ⟨by decide, rfl, rfl⟩

/-- C5, amended: a received `PageUpdate` on a held page is applied when the
page's current value for the key is absent or falsy, or when the timestamp
is strictly newer than the page's `modified_at`; when the current value is
truthy and the timestamp is not newer, the state is left unchanged. -/
theorem handlePageUpdate_lww (st : StorageState) (pid : String) (page : Page)
    (k : String) (v : JSValue) (ts : Nat)
    (hp : mapGet st.pages pid = some page) :
    (truthyOpt (mapGet page.data k) = true → ts ≤ page.lastModified →
        handlePageUpdate st pid k v ts = st) ∧
    (truthyOpt (mapGet page.data k) = false ∨ page.lastModified < ts →
        (mapGet (handlePageUpdate st pid k v ts).pages pid).map
            (fun p => mapGet p.data k) = some (some v)) := by
  constructor
  · intro htr hts
    unfold handlePageUpdate
    rw [hp]
    simp [htr, Nat.not_lt.mpr hts]
  · intro happ
    unfold handlePageUpdate
    rw [hp]
    simp only [if_pos happ]
    simp [mapGet_mapSet_self]

/-- Witness state for the amended C5 theorem: page `W` holds a truthy value
for `k` and has `lastModified` 10. -/
def c5WitnessState : StorageState :=
  { pages :=
      [("W", { id := "W", data := [("k", .str "old")], size := 4,
               created := 0, lastModified := 10, firstKey := some "k",
               owner := "me", replicas := ["me"] })],
    pageIndex := [("k", "W")] }

theorem handlePageUpdate_lww_witness :
    handlePageUpdate c5WitnessState "W" "k" (.str "new") 5 = c5WitnessState ∧
    (mapGet (handlePageUpdate c5WitnessState "W" "k" (.str "new") 20).pages
        "W").map (fun p => mapGet p.data "k") = some (some (.str "new")) :=
  ⟨(handlePageUpdate_lww c5WitnessState "W" _ "k" (.str "new") 5 rfl).1
      (by rfl) (by decide),
   (handlePageUpdate_lww c5WitnessState "W" _ "k" (.str "new") 20 rfl).2
      (Or.inr (by decide))⟩

/-- Page state for the C6 scenario: an empty page with `lastModified` 10. -/
def c6State : StorageState :=
  { pages :=
      [("P", { id := "P", data := [], size := 0, created := 0,
               lastModified := 10, firstKey := none, owner := "me",
               replicas := ["me"] })],
    pageIndex := [] }

/-- C6: a remote `PageUpdate` inserts key `aa` (value 5, a number) into an
empty page charging only the value's 8 bytes, and a subsequent
`deleteLocal "aa"` subtracts key plus value (12 bytes), driving the page's
`size` to -4 — the size counter goes negative, against the claimed
invariant. -/
theorem page_size_goes_negative :
    ((mapGet (deleteLocal
        (handlePageUpdate c6State "P" "aa" (.num 5) 20) "aa" 4096 30).2.pages
        "P").map Page.size) = some (-4) ∧ (-4 : Int) < 0 := by
  refine ⟨rfl, by decide⟩

/-! ### theorems for C8: splitPage preserves content -/

theorem splitFold_fst_data (newId : String) (moved : List (String × JSValue)) :
    ∀ (np orig : Page) (idx : List (String × String)),
      ((moved.foldl (splitStep newId) (np, orig, idx)).1).data =
        moved.foldl (fun d kv => mapSet d kv.1 kv.2) np.data := by
  induction moved with
  | nil => intro np orig idx; rfl
  | cons kv rest ih =>
      intro np orig idx
      simp only [List.foldl_cons, splitStep]
      exact ih _ _ _

theorem splitFold_orig_data (newId : String)
    (moved : List (String × JSValue)) :
    ∀ (np orig : Page) (idx : List (String × String)),
      ((moved.foldl (splitStep newId) (np, orig, idx)).2.1).data =
        moved.foldl (fun d kv => mapDelete d kv.1) orig.data := by
  induction moved with
  | nil => intro np orig idx; rfl
  | cons kv rest ih =>
      intro np orig idx
      simp only [List.foldl_cons, splitStep]
      exact ih _ _ _

theorem splitFold_idx (newId : String) (moved : List (String × JSValue)) :
    ∀ (np orig : Page) (idx : List (String × String)),
      (moved.foldl (splitStep newId) (np, orig, idx)).2.2 =
        moved.foldl (fun ix kv => mapSet ix kv.1 newId) idx := by
  induction moved with
  | nil => intro np orig idx; rfl
  | cons kv rest ih =>
      intro np orig idx
      simp only [List.foldl_cons, splitStep]
      exact ih _ _ _

theorem mapSet_of_get_none {α : Type} (m : List (String × α)) (k : String)
    (v : α) (h : mapGet m k = none) : mapSet m k v = m ++ [(k, v)] := by
  induction m with
  | nil => rfl
  | cons hd tl ih =>
      obtain ⟨k', v'⟩ := hd
      by_cases hk : k' = k
      · simp [mapGet, hk] at h
      · simp only [mapGet, if_neg hk] at h
        simp [mapSet, if_neg hk, ih h]

theorem foldl_mapSet_append {α : Type} (l : List (String × α)) :
    ∀ (m : List (String × α)),
      (∀ k ∈ l.map Prod.fst, mapGet m k = none) →
      (l.map Prod.fst).Nodup →
      l.foldl (fun d kv => mapSet d kv.1 kv.2) m = m ++ l := by
  induction l with
  | nil => intro m _ _; simp
  | cons kv rest ih =>
      intro m hnone hnd
      obtain ⟨k, v⟩ := kv
      simp only [List.map_cons, List.nodup_cons] at hnd
      simp only [List.foldl_cons]
      have hset : mapSet m k v = m ++ [(k, v)] :=
        mapSet_of_get_none m k v (hnone k (by simp))
      have hrest : ∀ k' ∈ rest.map Prod.fst, mapGet (mapSet m k v) k' = none := by
        intro k' hk'
        have hne : k ≠ k' := fun h => hnd.1 (h ▸ hk')
        rw [mapGet_mapSet_ne m k k' v hne]
        exact hnone k' (by simp [hk'])
      rw [ih (mapSet m k v) hrest hnd.2, hset]
      simp

theorem mapDelete_eq_filter {α : Type} (m : List (String × α)) (k : String)
    (hnd : (m.map Prod.fst).Nodup) :
    mapDelete m k = m.filter (fun p => decide (p.1 ≠ k)) := by
  induction m with
  | nil => rfl
  | cons hd tl ih =>
      obtain ⟨k', v'⟩ := hd
      simp only [List.map_cons, List.nodup_cons] at hnd
      by_cases hk : k' = k
      · subst hk
        have hfilter : tl.filter (fun p => decide (p.1 ≠ k')) = tl :=
          List.filter_eq_self.mpr (fun p hp => by
            simp only [decide_eq_true_eq]
            exact fun hc => hnd.1 (hc ▸ List.mem_map_of_mem Prod.fst hp))
        simp only [mapDelete, List.filter_cons]
        simp only [ne_eq, decide_not] at hfilter
        simp [hfilter]
      · simp [mapDelete, hk, List.filter_cons, ih hnd.2]

theorem nodup_keys_mapDelete {α : Type} (m : List (String × α)) (k : String)
    (hnd : (m.map Prod.fst).Nodup) :
    ((mapDelete m k).map Prod.fst).Nodup := by
  rw [mapDelete_eq_filter m k hnd]
  exact hnd.sublist (List.Sublist.map Prod.fst (List.filter_sublist m))

theorem foldl_mapDelete_eq_filter {α : Type} (l : List (String × JSValue)) :
    ∀ (m : List (String × α)), (m.map Prod.fst).Nodup →
      l.foldl (fun d kv => mapDelete d kv.1) m =
        m.filter (fun p => decide (p.1 ∉ l.map Prod.fst)) := by
  induction l with
  | nil =>
      intro m _
      simp
  | cons kv rest ih =>
      intro m hnd
      obtain ⟨k, v⟩ := kv
      simp only [List.foldl_cons]
      rw [ih (mapDelete m k) (nodup_keys_mapDelete m k hnd),
        mapDelete_eq_filter m k hnd, List.filter_filter]
      apply List.filter_congr
      intro p _
      simp only [List.map_cons, List.mem_cons, decide_eq_true_eq, decide_not]
      by_cases h1 : p.1 = k <;> by_cases h2 : p.1 ∈ rest.map Prod.fst <;>
        simp [h1, h2]

theorem foldl_idxSet_not_mem (nid : String) (l : List (String × JSValue)) :
    ∀ (ix : List (String × String)) (k : String), k ∉ l.map Prod.fst →
      mapGet (l.foldl (fun ix kv => mapSet ix kv.1 nid) ix) k = mapGet ix k := by
  induction l with
  | nil => intro ix k _; rfl
  | cons kv rest ih =>
      intro ix k hk
      simp only [List.map_cons, List.mem_cons, not_or] at hk
      simp only [List.foldl_cons]
      rw [ih _ k hk.2, mapGet_mapSet_ne _ _ _ _ (fun h => hk.1 h.symm)]

theorem foldl_idxSet_mem (nid : String) (l : List (String × JSValue)) :
    ∀ (ix : List (String × String)) (k : String), k ∈ l.map Prod.fst →
      mapGet (l.foldl (fun ix kv => mapSet ix kv.1 nid) ix) k = some nid := by
  induction l with
  | nil => intro ix k hk; simp at hk
  | cons kv rest ih =>
      intro ix k hk
      simp only [List.foldl_cons]
      by_cases hmem : k ∈ rest.map Prod.fst
      · exact ih _ k hmem
      · have hk1 : kv.1 = k := by
          simp only [List.map_cons, List.mem_cons] at hk
          tauto
        rw [foldl_idxSet_not_mem nid rest _ k hmem, hk1,
          mapGet_mapSet_self]

/-- C8: `splitPage` never loses or duplicates a key — with at most one entry
it changes nothing, and otherwise the entries of the new page together with
the entries left in the original page are a permutation of the pre-split
entries, while `pageIndex` maps each moved key (each key of the new page)
to the new page's id. Keys in a JS `Map` are unique, hence the `Nodup`
hypothesis. -/
theorem splitPage_preserves_content (page : Page)
    (idx : List (String × String)) (peerId newId : String) (now : Nat)
    (hnd : (page.data.map Prod.fst).Nodup) :
    (page.data.length ≤ 1 → splitPage page idx peerId newId now = (page, none, idx)) ∧
    (2 ≤ page.data.length → ∃ newPage,
        (splitPage page idx peerId newId now).2.1 = some newPage ∧
        (newPage.data ++ (splitPage page idx peerId newId now).1.data).Perm
          page.data ∧
        ∀ k ∈ newPage.data.map Prod.fst,
          mapGet (splitPage page idx peerId newId now).2.2 k = some newId) := by
  constructor
  · intro h
    unfold splitPage
    simp [h]
  · intro h2
    have hlen : ¬ page.data.length ≤ 1 := by omega
    have hperm : (sortEntries page.data).Perm page.data :=
      List.mergeSort_perm page.data _
    have hsnd : ((sortEntries page.data).map Prod.fst).Nodup :=
      hnd.perm (hperm.map Prod.fst).symm
    set s := sortEntries page.data with hsdef
    set mid := s.length / 2 with hmiddef
    have hsplit : s.take mid ++ s.drop mid = s := List.take_append_drop mid s
    have hkeysplit : (s.take mid).map Prod.fst ++ (s.drop mid).map Prod.fst =
        s.map Prod.fst := by
      rw [← List.map_append, hsplit]
    have hdisj : ∀ p ∈ s.take mid, p.1 ∉ (s.drop mid).map Prod.fst := by
      intro p hp hmem
      have hnd2 : ((s.take mid).map Prod.fst ++ (s.drop mid).map Prod.fst).Nodup := by
        rw [hkeysplit]; exact hsnd
      rw [List.nodup_append] at hnd2
      exact hnd2.2.2 (List.mem_map_of_mem Prod.fst hp) hmem
    have hmovednd : ((s.drop mid).map Prod.fst).Nodup :=
      hsnd.sublist (List.Sublist.map Prod.fst (List.drop_sublist mid s))
    unfold splitPage
    simp only [if_neg hlen]
    refine ⟨_, rfl, ?_, ?_⟩
    · -- permutation of the entries
      have hnewdata :
          ((s.drop mid).foldl (splitStep newId)
            (createPage peerId newId now (some ((s.getD mid ("", .null)).1)),
              page, idx)).1.data = s.drop mid := by
        rw [splitFold_fst_data]
        have := foldl_mapSet_append (s.drop mid)
          (createPage peerId newId now (some ((s.getD mid ("", .null)).1))).data
          (fun k _ => rfl) hmovednd
        rw [this]
        rfl
      have horigdata :
          ((s.drop mid).foldl (splitStep newId)
            (createPage peerId newId now (some ((s.getD mid ("", .null)).1)),
              page, idx)).2.1.data =
            page.data.filter (fun p => decide (p.1 ∉ (s.drop mid).map Prod.fst)) := by
        rw [splitFold_orig_data]
        exact foldl_mapDelete_eq_filter (s.drop mid) page.data hnd
      simp only [hnewdata, horigdata]
      have hfilter : (page.data.filter
          (fun p => decide (p.1 ∉ (s.drop mid).map Prod.fst))).Perm (s.take mid) := by
        have h1 : (page.data.filter
            (fun p => decide (p.1 ∉ (s.drop mid).map Prod.fst))).Perm
            (s.filter (fun p => decide (p.1 ∉ (s.drop mid).map Prod.fst))) :=
          List.Perm.filter _ hperm.symm
        have hgen : ∀ (l₁ l₂ : List (String × JSValue)),
            (∀ p ∈ l₁, p.1 ∉ l₂.map Prod.fst) →
            (l₁ ++ l₂).filter (fun p => decide (p.1 ∉ l₂.map Prod.fst)) = l₁ := by
          intro l₁ l₂ hd
          rw [List.filter_append]
          have h3 : l₁.filter (fun p => decide (p.1 ∉ l₂.map Prod.fst)) = l₁ := by
            rw [List.filter_eq_self]
            intro p hp
            simp only [decide_eq_true_eq]
            exact hd p hp
          have h4 : l₂.filter (fun p => decide (p.1 ∉ l₂.map Prod.fst)) = [] := by
            rw [List.filter_eq_nil_iff]
            intro p hp
            simp only [decide_eq_true_eq, not_not]
            exact List.mem_map_of_mem Prod.fst hp
          rw [h3, h4, List.append_nil]
        have h2 := hgen (s.take mid) (s.drop mid) hdisj
        rw [hsplit] at h2
        rw [h2] at h1
        exact h1
      have hback : ((s.drop mid) ++ s.take mid).Perm page.data := by
        have h5 : ((s.drop mid) ++ s.take mid).Perm (s.take mid ++ s.drop mid) :=
          List.perm_append_comm
        rw [hsplit] at h5
        exact h5.trans hperm
      exact (List.Perm.append_left (s.drop mid) hfilter).trans hback
    · -- index points moved keys at the new page
      intro k hk
      have hnewdata :
          ((s.drop mid).foldl (splitStep newId)
            (createPage peerId newId now (some ((s.getD mid ("", .null)).1)),
              page, idx)).1.data = s.drop mid := by
        rw [splitFold_fst_data]
        have := foldl_mapSet_append (s.drop mid)
          (createPage peerId newId now (some ((s.getD mid ("", .null)).1))).data
          (fun k _ => rfl) hmovednd
        rw [this]
        rfl
      have hidx :
          ((s.drop mid).foldl (splitStep newId)
            (createPage peerId newId now (some ((s.getD mid ("", .null)).1)),
              page, idx)).2.2 =
            (s.drop mid).foldl (fun ix kv => mapSet ix kv.1 newId) idx :=
        splitFold_idx newId (s.drop mid) _ _ _
      have hk' : k ∈ (s.drop mid).map Prod.fst := by
        have hk2 : k ∈ (((s.drop mid).foldl (splitStep newId)
            (createPage peerId newId now (some ((s.getD mid ("", .null)).1)),
              page, idx)).1).data.map Prod.fst := hk
        rw [hnewdata] at hk2
        exact hk2
      rw [hidx]
      exact foldl_idxSet_mem newId (s.drop mid) idx k hk'

/-- Witness page for C8: two entries with distinct keys. -/
def c8Page : Page :=
  { id := "P", data := [("b", .str "y"), ("a", .str "x")], size := 8,
    created := 0, lastModified := 0, firstKey := some "b", owner := "me",
    replicas := ["me"] }

theorem splitPage_preserves_content_witness :
    ∃ newPage,
      (splitPage c8Page [("a", "P"), ("b", "P")] "me" "N" 9).2.1 =
        some newPage ∧
      (newPage.data ++
        (splitPage c8Page [("a", "P"), ("b", "P")] "me" "N" 9).1.data).Perm
        c8Page.data ∧
      ∀ k ∈ newPage.data.map Prod.fst,
        mapGet (splitPage c8Page [("a", "P"), ("b", "P")] "me" "N" 9).2.2 k =
          some "N" :=
  (splitPage_preserves_content c8Page [("a", "P"), ("b", "P")] "me" "N" 9
    (by decide)).2 (by decide)

/-! ### Chunk storage (ChunkStorage.js)

File bytes are `List Nat`. The DHT peer lookup
`this.dht.findPeersForKey(chunkId, 3)` resolves through the external WebDHT
(mesh layer); it is embedded as the function parameter `peers`. Quantities
are integral, so `Math.floor(available * 0.1)` is embedded as floor division
by 10 (the reservation fraction is one tenth; the double rounding of `0.1`
cannot move the floor across an integer for the byte counts involved). -/

/-- Decimal digits of a natural number, most significant first, with the
fuel argument making the recursion structural (`fuel > n` suffices). -/
def natDigitsAux : Nat → Nat → List Nat
  | 0, _ => []
  | fuel + 1, n => if n < 10 then [n] else natDigitsAux fuel (n / 10) ++ [n % 10]

def natDigits (n : Nat) : List Nat := natDigitsAux (n + 1) n

/-- Rendering of a natural number the way a JavaScript template literal
renders a (small integral) number: its decimal digits. -/
def natToString (n : Nat) : String := ⟨(natDigits n).map Nat.digitChar⟩

/-- ChunkStorage.generateChunkId: deterministic chunk key
`fileHash:chunkIndex`, so identical content yields identical chunk ids. -/
def generateChunkId (fileHash : String) (chunkIndex : Nat) : String :=
  fileHash ++ ":" ++ natToString chunkIndex

/-- Chunk metadata record kept in `this.chunkMetadata`. The source also
stores a `proximity` field; in `storeChunk` it is the result of an
un-awaited `async` call (a `Promise` object), and no modeled operation reads
it, so it is omitted. -/
structure ChunkMeta where
  fileHash : String
  filename : String
  chunkIndex : Nat
  size : Nat
  stored : Nat
  accessed : Nat

/-- State of one peer's ChunkStorage: platform role, configuration, the
chunk maps and the running statistics. -/
structure ChunkState where
  isBrowser : Bool
  peerId : String
  chunkSize : Nat
  storageQuota : Int
  chunks : List (String × List Nat)
  chunkMetadata : List (String × ChunkMeta)
  fileChunks : List (String × List String)
  responsibleChunks : List String
  storageUsed : Int
  totalChunks : Int
  totalFiles : Int

/-- ChunkStorage.getAvailableQuota, fallback branch: configured quota minus
current usage (the browser branch consults `navigator.storage.estimate`, a
platform input outside this repository). -/
def getAvailableQuota (st : ChunkState) : Int :=
  st.storageQuota - st.storageUsed

/-- ChunkStorage.getAvailableChunkStorage:
`Math.floor(available * chunkStoragePercent)` with the 10% reservation. -/
def getAvailableChunkStorage (st : ChunkState) : Int :=
  Int.fdiv (getAvailableQuota st) 10

/-- ChunkStorage.shouldStoreChunk (resolved value): node/app peers store any
chunk; browser peers only chunks whose top-3 closest peers include this
peer. -/
def shouldStoreChunk (peers : String → List String) (st : ChunkState)
    (chunkId : String) : Bool :=
  if !st.isBrowser then true
  else (peers chunkId).contains st.peerId

/-- Truthiness of the guard value in `storeChunk`: the source tests
`!this.shouldStoreChunk(chunkId)` without `await`; `shouldStoreChunk` is
`async`, so the tested value is a `Promise` object, which is always truthy
in JavaScript regardless of the boolean it resolves to. -/
def promiseIsTruthy : Bool := true

/-- Membership update of the JS `Set` `responsibleChunks`. -/
def setAdd (l : List String) (x : String) : List String :=
  if l.contains x then l else l ++ [x]

/-- Iteration of `new Set(list)`: insertion order with the first occurrence
of each element kept. -/
def jsSetOfList (l : List String) : List String :=
  l.foldl (fun acc x => if acc.contains x then acc else acc ++ [x]) []

/-- Loop of ChunkStorage.evictChunksForSpace over the LRU-sorted snapshot:
stop once enough is freed, otherwise drop the chunk, its metadata and
responsibility mark and adjust the statistics. -/
def evictLoop (st : ChunkState) (required freed : Int) :
    List (String × ChunkMeta) → Int × ChunkState
  | [] => (freed, st)
  | (cid, meta) :: rest =>
      if required ≤ freed then (freed, st)
      else
        let st' := { st with
          chunks := mapDelete st.chunks cid,
          chunkMetadata := mapDelete st.chunkMetadata cid,
          responsibleChunks := st.responsibleChunks.erase cid,
          storageUsed := st.storageUsed - meta.size,
          totalChunks := st.totalChunks - 1 }
        evictLoop st' required (freed + meta.size) rest

/-- ChunkStorage.evictChunksForSpace: sorts all chunk metadata by
`accessed` ascending (true LRU; the numeric comparator is stable) and evicts
until `requiredSpace` is freed or nothing evictable remains. -/
def evictChunksForSpace (st : ChunkState) (required : Int) : ChunkState :=
  (evictLoop st required 0
    (st.chunkMetadata.mergeSort
      (fun a b => decide (a.2.accessed ≤ b.2.accessed)))).2

/-- ChunkStorage.storeChunk: the skip branch tests an un-awaited `Promise`
(see `promiseIsTruthy`), so it never fires; when the quota check
`storageUsed + chunkSize > availableStorage` trips, eviction is attempted,
and the chunk is then stored unconditionally (even if eviction freed
nothing). -/
def storeChunk (peers : String → List String) (st : ChunkState)
    (chunkId : String) (chunkData : List Nat) (metadata : ChunkMeta)
    (now : Nat) : Bool × ChunkState :=
  if !promiseIsTruthy then (false, st)
  else
    let availableStorage := getAvailableChunkStorage st
    let csz : Int := chunkData.length
    let st1 := if availableStorage < st.storageUsed + csz then
        evictChunksForSpace st csz
      else st
    (true, { st1 with
      chunks := mapSet st1.chunks chunkId chunkData,
      chunkMetadata := mapSet st1.chunkMetadata chunkId
        { metadata with size := chunkData.length, stored := now,
                        accessed := now },
      storageUsed := st1.storageUsed + csz,
      totalChunks := st1.totalChunks + 1,
      responsibleChunks := setAdd st1.responsibleChunks chunkId })

/-- Per-chunk slice `buffer.slice(start, end)`: the bytes in
`[start, end)`. -/
def jsSlice (l : List Nat) (s e : Nat) : List Nat := (l.take e).drop s

/-- Bytes of chunk `i` of a file: `[i*chunkSize, min((i+1)*chunkSize,
fileSize))`. -/
def chunkDataOf (cs : Nat) (data : List Nat) (i : Nat) : List Nat :=
  jsSlice data (i * cs) (min (i * cs + cs) data.length)

/-- Loop of ChunkStorage.storeAsChunks over the chunk indices: build the
chunk id and slice, store the chunk (with metadata, usage and
responsibility updates) when `shouldStoreChunk` resolves true — here the
`await` is present in the source — and collect every chunk id in order
regardless. Returns (chunkIds, storedChunks, state). -/
def storeChunksLoop (peers : String → List String) (st : ChunkState)
    (fileHash filename : String) (data : List Nat) (now : Nat) :
    List Nat → List String × Nat × ChunkState
  | [] => ([], 0, st)
  | i :: rest =>
      let chunkId := generateChunkId fileHash i
      let chunkData := chunkDataOf st.chunkSize data i
      let shouldStore := shouldStoreChunk peers st chunkId
      let st1 := if shouldStore then
          { st with
            chunks := mapSet st.chunks chunkId chunkData,
            chunkMetadata := mapSet st.chunkMetadata chunkId
              { fileHash := fileHash, filename := filename, chunkIndex := i,
                size := chunkData.length, stored := now, accessed := now },
            storageUsed := st.storageUsed + chunkData.length,
            responsibleChunks := setAdd st.responsibleChunks chunkId }
        else st
      let res := storeChunksLoop peers st1 fileHash filename data now rest
      (chunkId :: res.1, (if shouldStore then 1 else 0) + res.2.1, res.2.2)

/-- Result record of a chunked store. -/
structure StoreResult where
  fileHash : String
  filename : String
  resultType : String
  totalChunks : Nat
  storedChunks : Nat
  chunkIds : List String

/-- ChunkStorage.storeAsChunks: `ceil(fileSize / chunkSize)` chunks, the
store loop, then `fileChunks` records the ordered id set and the stats gain
the stored count. The `file:<hash>` metadata record written through the
page/DHT layer is not read by the local chunk operations and is omitted;
no quota check happens anywhere on this path. -/
def storeAsChunks (peers : String → List String) (st : ChunkState)
    (fileHash filename : String) (data : List Nat) (now : Nat) :
    StoreResult × ChunkState :=
  let totalChunks := (data.length + st.chunkSize - 1) / st.chunkSize
  let res := storeChunksLoop peers st fileHash filename data now
    (List.range totalChunks)
  let st2 := res.2.2
  let st3 := { st2 with
    fileChunks := mapSet st2.fileChunks fileHash (jsSetOfList res.1),
    totalChunks := st2.totalChunks + res.2.1 }
  ({ fileHash := fileHash, filename := filename, resultType := "chunked",
     totalChunks := totalChunks, storedChunks := res.2.1,
     chunkIds := res.1 }, st3)

/-- ChunkStorage.getChunk: a locally held chunk is returned with its
`accessed` stamp refreshed; otherwise the source asks the responsible peers
over the network (external, yielding no chunk here). -/
def getChunk (st : ChunkState) (chunkId : String) (now : Nat) :
    Option (List Nat) × ChunkState :=
  match mapGet st.chunks chunkId with
  | some c =>
      let st' := match mapGet st.chunkMetadata chunkId with
        | some m =>
            { st with
              chunkMetadata := mapSet st.chunkMetadata chunkId
                { m with accessed := now } }
        | none => st
      (some c, st')
  | none => (none, st)

/-- Chunk collection loop of `assembleFromChunks`: every chunk id in order,
failing the whole reconstruction on the first missing chunk. -/
def collectChunks (now : Nat) : ChunkState → List String →
    Option (List (List Nat) × ChunkState)
  | st, [] => some ([], st)
  | st, cid :: rest =>
      match getChunk st cid now with
      | (none, _) => none
      | (some c, st') =>
          match collectChunks now st' rest with
          | none => none
          | some (cs, st'') => some (c :: cs, st'')

/-- ChunkStorage.assembleFromChunks: look up the file's ordered chunk id
set, fetch every chunk, and concatenate them in index order (the returned
record's `data` field). -/
def assembleFromChunks (st : ChunkState) (fileHash : String) (now : Nat) :
    Option (List Nat) :=
  match mapGet st.fileChunks fileHash with
  | none => none
  | some ids => (collectChunks now st ids).map (fun r => r.1.flatten)

/-! ### theorems for C2 and C3 -/

/-- Base metadata record (callers of `storeChunk` default `metadata` to an
empty object). -/
def emptyMeta : ChunkMeta :=
  { fileHash := "", filename := "", chunkIndex := 0, size := 0, stored := 0,
    accessed := 0 }

/-- Chunk state of an edge (browser) peer with the default 50MB quota and
empty stores. -/
def c3State : ChunkState :=
  { isBrowser := true, peerId := "me", chunkSize := 65536,
    storageQuota := 52428800, chunks := [], chunkMetadata := [],
    fileChunks := [], responsibleChunks := [], storageUsed := 0,
    totalChunks := 0, totalFiles := 0 }

/-- DHT responsibility oracle under which this peer is never among the top-3
closest peers for any key. -/
def c3Peers : String → List String := fun _ => ["p1", "p2", "p3"]

/-- C3: on an edge peer that is not among the three closest peers for the
chunk (`shouldStoreChunk` resolves `false`), `storeChunk` still returns
`true` and stores the chunk — the refusal branch tests an un-awaited
`Promise` and is dead, so the retention invariant is broken. -/
theorem storeChunk_ignores_responsibility :
    shouldStoreChunk c3Peers c3State "c0" = false ∧
    (storeChunk c3Peers c3State "c0" [1, 2, 3] emptyMeta 100).1 = true ∧
    mapGet (storeChunk c3Peers c3State "c0" [1, 2, 3] emptyMeta 100).2.chunks
      "c0" = some [1, 2, 3] := by
  refine ⟨rfl, rfl, rfl⟩

/-- Chunk state of a node (server) peer with quota 100 bytes and empty
stores; its 10% chunk budget is 10 bytes. -/
def c2State : ChunkState :=
  { isBrowser := false, peerId := "me", chunkSize := 65536,
    storageQuota := 100, chunks := [], chunkMetadata := [], fileChunks := [],
    responsibleChunks := [], storageUsed := 0, totalChunks := 0,
    totalFiles := 0 }

unseal List.merge List.mergeSort in
/-- C2: on a server peer with quota 100 (chunk budget
`quota * 0.1 = 10`), storing a 50-byte chunk trips the quota check, the
eviction pass frees nothing (nothing is evictable), and the chunk is stored
anyway: the call returns `true` and `storageUsed` lands at 50, five times
the budget — the store is neither rejected nor preceded by sufficient
eviction. -/
theorem storeChunk_exceeds_chunk_budget :
    getAvailableChunkStorage c2State = 10 ∧
    (storeChunk c3Peers c2State "c" (List.replicate 50 7) emptyMeta 100).1 =
      true ∧
    (storeChunk c3Peers c2State "c" (List.replicate 50 7) emptyMeta
      100).2.storageUsed = 50 ∧
    (10 : Int) < 50 := by
  refine ⟨rfl, rfl, rfl, by decide⟩

/-! ### theorems for C7: chunking and reassembly round-trip

The chunk ids `fileHash:i` of one file are pairwise distinct; this follows
from the injectivity of the decimal rendering, proved here through the
digit evaluation map. -/

def digitsVal (ds : List Nat) : Nat := ds.foldl (fun a d => 10 * a + d) 0

theorem digitsVal_append (ds : List Nat) (d : Nat) :
    digitsVal (ds ++ [d]) = 10 * digitsVal ds + d := by
  simp [digitsVal, List.foldl_append]

theorem natDigitsAux_val :
    ∀ (fuel n : Nat), n < fuel → digitsVal (natDigitsAux fuel n) = n := by
  intro fuel
  induction fuel with
  | zero => intro n h; omega
  | succ fuel ih =>
      intro n h
      unfold natDigitsAux
      by_cases h10 : n < 10
      · simp [h10, digitsVal]
      · have hlt : n / 10 < n := Nat.div_lt_self (by omega) (by omega)
        have hfuel : n / 10 < fuel := by omega
        simp only [if_neg h10]
        rw [digitsVal_append, ih (n / 10) hfuel]
        omega

theorem natDigitsAux_lt10 :
    ∀ (fuel n : Nat), ∀ d ∈ natDigitsAux fuel n, d < 10 := by
  intro fuel
  induction fuel with
  | zero => intro n d hd; simp [natDigitsAux] at hd
  | succ fuel ih =>
      intro n d hd
      unfold natDigitsAux at hd
      by_cases h10 : n < 10
      · simp [h10] at hd
        omega
      · simp only [if_neg h10, List.mem_append] at hd
        rcases hd with hd | hd
        · exact ih (n / 10) d hd
        · simp at hd
          omega

theorem digitChar_inj_lt10 (a b : Nat) (ha : a < 10) (hb : b < 10)
    (h : Nat.digitChar a = Nat.digitChar b) : a = b := by
  revert h
  interval_cases a <;> interval_cases b <;> decide

theorem map_digitChar_inj :
    ∀ (xs ys : List Nat), (∀ d ∈ xs, d < 10) → (∀ d ∈ ys, d < 10) →
      xs.map Nat.digitChar = ys.map Nat.digitChar → xs = ys := by
  intro xs
  induction xs with
  | nil =>
      intro ys _ _ h
      cases ys with
      | nil => rfl
      | cons y ys => simp at h
  | cons x xs ih =>
      intro ys hx hy h
      cases ys with
      | nil => simp at h
      | cons y ys =>
          simp only [List.map_cons, List.cons.injEq] at h
          have hxy := digitChar_inj_lt10 x y (hx x (by simp))
            (hy y (by simp)) h.1
          rw [hxy, ih ys (fun d hd => hx d (by simp [hd]))
            (fun d hd => hy d (by simp [hd])) h.2]

theorem natToString_inj (m n : Nat) (h : natToString m = natToString n) :
    m = n := by
  have hdata : (natDigits m).map Nat.digitChar =
      (natDigits n).map Nat.digitChar := congrArg String.data h
  have hdig := map_digitChar_inj _ _ (natDigitsAux_lt10 _ _)
    (natDigitsAux_lt10 _ _) hdata
  have hval := congrArg digitsVal hdig
  rwa [natDigitsAux_val (m + 1) m (by omega),
    natDigitsAux_val (n + 1) n (by omega)] at hval

theorem generateChunkId_inj (fileHash : String) (i j : Nat)
    (h : generateChunkId fileHash i = generateChunkId fileHash j) : i = j := by
  have hdata := congrArg String.data h
  unfold generateChunkId at hdata
  rw [String.data_append, String.data_append] at hdata
  exact natToString_inj i j (String.ext (List.append_cancel_left hdata))

theorem chunkIds_nodup (fileHash : String) (n : Nat) :
    ((List.range n).map (generateChunkId fileHash)).Nodup :=
  List.Nodup.map (fun a b hab => generateChunkId_inj fileHash a b hab)
    (List.nodup_range n)

theorem jsSetOfList_aux :
    ∀ (l acc : List String), (∀ x ∈ l, x ∉ acc) → l.Nodup →
      l.foldl (fun acc x => if acc.contains x then acc else acc ++ [x]) acc =
        acc ++ l := by
  intro l
  induction l with
  | nil => intro acc _ _; simp
  | cons x rest ih =>
      intro acc hnotin hnd
      simp only [List.nodup_cons] at hnd
      simp only [List.foldl_cons]
      have hc : acc.contains x = false := by
        simpa using hnotin x (by simp)
      rw [hc]
      simp only [Bool.false_eq_true, if_false]
      have hrest : ∀ y ∈ rest, y ∉ acc ++ [x] := by
        intro y hy
        simp only [List.mem_append, List.mem_singleton, not_or]
        exact ⟨hnotin y (by simp [hy]), fun h => hnd.1 (h ▸ hy)⟩
      rw [ih (acc ++ [x]) hrest hnd.2]
      simp

theorem jsSetOfList_eq_self (l : List String) (hnd : l.Nodup) :
    jsSetOfList l = l := by
  have := jsSetOfList_aux l [] (by simp) hnd
  simpa [jsSetOfList] using this

theorem storeChunksLoop_stable (peers : String → List String)
    (fileHash filename : String) (data : List Nat) (now : Nat) :
    ∀ (is : List Nat) (st : ChunkState),
      (storeChunksLoop peers st fileHash filename data now is).2.2.isBrowser =
        st.isBrowser ∧
      (storeChunksLoop peers st fileHash filename data now is).2.2.chunkSize =
        st.chunkSize ∧
      (storeChunksLoop peers st fileHash filename data now is).2.2.fileChunks =
        st.fileChunks := by
  intro is
  induction is with
  | nil => intro st; exact ⟨rfl, rfl, rfl⟩
  | cons i rest ih =>
      intro st
      simp only [storeChunksLoop]
      refine ⟨?_, ?_, ?_⟩
      · split
        · exact (ih _).1
        · exact (ih _).1
      · split
        · exact (ih _).2.1
        · exact (ih _).2.1
      · split
        · exact (ih _).2.2
        · exact (ih _).2.2

theorem storeChunksLoop_ids (peers : String → List String)
    (fileHash filename : String) (data : List Nat) (now : Nat) :
    ∀ (is : List Nat) (st : ChunkState),
      (storeChunksLoop peers st fileHash filename data now is).1 =
        is.map (generateChunkId fileHash) := by
  intro is
  induction is with
  | nil => intro st; rfl
  | cons i rest ih =>
      intro st
      simp only [storeChunksLoop, List.map_cons]
      split
      · rw [ih]
      · rw [ih]

theorem storeChunksLoop_chunks_preserved (peers : String → List String)
    (fileHash filename : String) (data : List Nat) (now : Nat) :
    ∀ (is : List Nat) (st : ChunkState) (k : String),
      k ∉ is.map (generateChunkId fileHash) →
      mapGet (storeChunksLoop peers st fileHash filename data
        now is).2.2.chunks k = mapGet st.chunks k := by
  intro is
  induction is with
  | nil => intro st k _; rfl
  | cons i rest ih =>
      intro st k hk
      simp only [List.map_cons, List.mem_cons, not_or] at hk
      simp only [storeChunksLoop]
      split
      · rw [ih _ k hk.2]
        exact mapGet_mapSet_ne _ _ _ _ (fun h => hk.1 h.symm)
      · exact ih _ k hk.2

theorem storeChunksLoop_chunks_mem (peers : String → List String)
    (fileHash filename : String) (data : List Nat) (now : Nat) (cs : Nat) :
    ∀ (is : List Nat) (st : ChunkState), st.isBrowser = false →
      st.chunkSize = cs → (is.map (generateChunkId fileHash)).Nodup →
      ∀ i ∈ is,
        mapGet (storeChunksLoop peers st fileHash filename data
          now is).2.2.chunks (generateChunkId fileHash i) =
          some (chunkDataOf cs data i) := by
  intro is
  induction is with
  | nil => intro st _ _ _ i hi; simp at hi
  | cons j rest ih =>
      intro st hb hcs hnd i hi
      have hsS : shouldStoreChunk peers st (generateChunkId fileHash j) =
          true := by
        simp [shouldStoreChunk, hb]
      simp only [List.map_cons, List.nodup_cons] at hnd
      simp only [storeChunksLoop, hsS, if_true]
      rcases List.mem_cons.mp hi with hij | hir
      · subst hij
        rw [storeChunksLoop_chunks_preserved peers fileHash filename data now
          rest _ _ hnd.1]
        rw [hcs, mapGet_mapSet_self]
      · apply ih
        · exact hb
        · exact hcs
        · exact hnd.2
        · exact hir

theorem getChunk_fst (st : ChunkState) (cid : String) (now : Nat) :
    (getChunk st cid now).1 = mapGet st.chunks cid := by
  unfold getChunk
  cases h : mapGet st.chunks cid <;> simp [h]

theorem getChunk_chunks (st : ChunkState) (cid : String) (now : Nat) :
    (getChunk st cid now).2.chunks = st.chunks := by
  unfold getChunk
  cases h1 : mapGet st.chunks cid <;>
    cases h2 : mapGet st.chunkMetadata cid <;> simp [h1, h2]

theorem collectChunks_all_present (now : Nat) :
    ∀ (ids : List String) (st : ChunkState),
      (∀ cid ∈ ids, (mapGet st.chunks cid).isSome) →
      ∃ stf, collectChunks now st ids =
        some (ids.map (fun cid => (mapGet st.chunks cid).getD []), stf) := by
  intro ids
  induction ids with
  | nil => intro st _; exact ⟨st, rfl⟩
  | cons cid rest ih =>
      intro st hall
      obtain ⟨c, hc⟩ := Option.isSome_iff_exists.mp (hall cid (by simp))
      rcases hgc : getChunk st cid now with ⟨fst, snd⟩
      have hfst : fst = some c := by
        have h1 := getChunk_fst st cid now
        rw [hgc] at h1
        exact h1.trans hc
      have hch : snd.chunks = st.chunks := by
        have h2 := getChunk_chunks st cid now
        rw [hgc] at h2
        exact h2
      subst hfst
      obtain ⟨stf, hrec⟩ := ih snd (by
        intro cid' h'
        rw [hch]
        exact hall cid' (by simp [h']))
      refine ⟨stf, ?_⟩
      simp only [collectChunks, hgc, hrec]
      simp only [List.map_cons, hc, Option.getD_some, hch]

theorem flatten_chunkDataOf_aux (cs : Nat) (hcs : 0 < cs) :
    ∀ (fuel : Nat) (data : List Nat), data.length ≤ fuel →
      ((List.range ((data.length + cs - 1) / cs)).map
        (chunkDataOf cs data)).flatten = data := by
  intro fuel
  induction fuel with
  | zero =>
      intro data h
      have hnil : data = [] := List.length_eq_zero.mp (by omega)
      subst hnil
      have h0 : (cs - 1) / cs = 0 := Nat.div_eq_of_lt (by omega)
      simp [h0]
  | succ fuel ih =>
      intro data h
      by_cases h0 : data.length = 0
      · have hnil : data = [] := List.length_eq_zero.mp h0
        subst hnil
        have h0' : (cs - 1) / cs = 0 := Nat.div_eq_of_lt (by omega)
        simp [h0']
      · by_cases hnc : data.length ≤ cs
        · have h1 : (data.length + cs - 1) / cs = 1 := by
            have h2 : data.length + cs - 1 = (data.length - 1) + cs := by omega
            rw [h2, Nat.add_div_right _ hcs, Nat.div_eq_of_lt (by omega)]
          rw [h1]
          simp only [List.range_succ, List.range_zero, List.nil_append,
            List.map_cons, List.map_nil, List.flatten_cons, List.flatten_nil,
            List.append_nil]
          simp only [chunkDataOf, jsSlice, Nat.zero_mul, List.drop_zero]
          have hmin : min (0 + cs) data.length = data.length := by omega
          rw [hmin, List.take_length]
        · have hcs_lt : cs < data.length := by omega
          have hceil : (data.length + cs - 1) / cs =
              ((data.length - cs) + cs - 1) / cs + 1 := by
            have h2 : data.length + cs - 1 = (data.length - 1) + cs := by omega
            have h3 : (data.length - cs) + cs - 1 =
                (data.length - cs - 1) + cs := by omega
            have h4 : data.length - 1 = (data.length - cs - 1) + cs := by omega
            rw [h2, Nat.add_div_right _ hcs, h3, Nat.add_div_right _ hcs, h4,
              Nat.add_div_right _ hcs]
          have hlen' : (data.drop cs).length = data.length - cs := by
            simp
          have hih := ih (data.drop cs) (by omega)
          rw [hlen'] at hih
          rw [hceil, List.range_succ_eq_map, List.map_cons, List.map_map,
            List.flatten_cons]
          have hhead : chunkDataOf cs data 0 = data.take cs := by
            simp only [chunkDataOf, jsSlice, Nat.zero_mul, List.drop_zero]
            congr 1
            omega
          have htail : ∀ i ∈ List.range (((data.length - cs) + cs - 1) / cs),
              (chunkDataOf cs data ∘ Nat.succ) i =
                chunkDataOf cs (data.drop cs) i := by
            intro i _
            simp only [Function.comp, chunkDataOf, jsSlice, hlen']
            rw [List.take_drop, List.drop_drop]
            have hsm : Nat.succ i * cs = i * cs + cs := Nat.succ_mul i cs
            congr 1
            · rw [hsm]
              omega
            · congr 1
              rw [hsm]
              generalize i * cs = m
              omega
          rw [List.map_congr_left htail, hih, hhead, List.take_append_drop]

theorem flatten_chunkDataOf (cs : Nat) (hcs : 0 < cs) (data : List Nat) :
    ((List.range ((data.length + cs - 1) / cs)).map
      (chunkDataOf cs data)).flatten = data :=
  flatten_chunkDataOf_aux cs hcs data.length data le_rfl

/-- C7: on a peer that retains every chunk (a node/server peer, where
`shouldStoreChunk` is unconditionally true), storing a file as chunks and
then assembling from its content hash reconstructs the bytes exactly, for
every byte list (length 0, 1, a chunk multiple, or chunks plus remainder):
the file is cut into `ceil(len/chunkSize)` slices
`[i*chunkSize, min((i+1)*chunkSize, len))` and reassembly concatenates them
in index order. -/
theorem storeAsChunks_assemble_roundtrip (peers : String → List String)
    (st : ChunkState) (fileHash filename : String) (data : List Nat)
    (now : Nat) (hb : st.isBrowser = false) (hcs : 0 < st.chunkSize) :
    assembleFromChunks (storeAsChunks peers st fileHash filename data now).2
      fileHash now = some data := by
  have hids := storeChunksLoop_ids peers fileHash filename data now
    (List.range ((data.length + st.chunkSize - 1) / st.chunkSize)) st
  have hnodup := chunkIds_nodup fileHash
    ((data.length + st.chunkSize - 1) / st.chunkSize)
  have hjs := jsSetOfList_eq_self _ hnodup
  have hmem := storeChunksLoop_chunks_mem peers fileHash filename data now
    st.chunkSize (List.range ((data.length + st.chunkSize - 1) / st.chunkSize))
    st hb rfl hnodup
  have hassemble : ∀ (stX : ChunkState),
      stX.chunks = (storeChunksLoop peers st fileHash filename data now
        (List.range ((data.length + st.chunkSize - 1) /
          st.chunkSize))).2.2.chunks →
      mapGet stX.fileChunks fileHash =
        some ((List.range ((data.length + st.chunkSize - 1) /
          st.chunkSize)).map (generateChunkId fileHash)) →
      assembleFromChunks stX fileHash now = some data := by
    intro stX hchunks hfc
    unfold assembleFromChunks
    rw [hfc]
    show (collectChunks now stX
      ((List.range ((data.length + st.chunkSize - 1) / st.chunkSize)).map
        (generateChunkId fileHash))).map (fun r => r.1.flatten) = some data
    obtain ⟨stf, hcol⟩ := collectChunks_all_present now
      ((List.range ((data.length + st.chunkSize - 1) / st.chunkSize)).map
        (generateChunkId fileHash)) stX
      (by
        intro cid hcid
        obtain ⟨i, hi, hgen⟩ := List.mem_map.mp hcid
        have hlook := hmem i hi
        rw [hgen] at hlook
        rw [hchunks, hlook]
        rfl)
    rw [hcol]
    show some ((((List.range ((data.length + st.chunkSize - 1) /
      st.chunkSize)).map (generateChunkId fileHash)).map
        (fun cid => (mapGet stX.chunks cid).getD [])).flatten) = some data
    have hvals : ((List.range ((data.length + st.chunkSize - 1) /
        st.chunkSize)).map (generateChunkId fileHash)).map
        (fun cid => (mapGet stX.chunks cid).getD []) =
        (List.range ((data.length + st.chunkSize - 1) / st.chunkSize)).map
          (chunkDataOf st.chunkSize data) := by
      rw [List.map_map]
      apply List.map_congr_left
      intro i hi
      simp only [Function.comp]
      rw [hchunks, hmem i hi]
      rfl
    rw [hvals, flatten_chunkDataOf st.chunkSize hcs data]
  apply hassemble
  · rfl
  · show mapGet (mapSet (storeChunksLoop peers st fileHash filename data now
      (List.range ((data.length + st.chunkSize - 1) /
        st.chunkSize))).2.2.fileChunks fileHash
      (jsSetOfList (storeChunksLoop peers st fileHash filename data now
        (List.range ((data.length + st.chunkSize - 1) / st.chunkSize))).1))
      fileHash = _
    rw [mapGet_mapSet_self, hids, hjs]

/-- Witness chunk state for C7: a node peer with chunk size 2 and empty
stores, so a 5-byte file makes two full chunks plus a remainder. -/
def c7State : ChunkState :=
  { isBrowser := false, peerId := "me", chunkSize := 2, storageQuota := 1000,
    chunks := [], chunkMetadata := [], fileChunks := [],
    responsibleChunks := [], storageUsed := 0, totalChunks := 0,
    totalFiles := 0 }

/-- Witness peer oracle for C7 (irrelevant on a node peer, which stores all
chunks). -/
def c7Peers : String → List String := fun _ => ["p1", "p2", "p3"]

theorem storeAsChunks_assemble_roundtrip_witness :
    assembleFromChunks
      (storeAsChunks c7Peers c7State "f" "file.bin" [1, 2, 3, 4, 5] 100).2
      "f" 100 = some [1, 2, 3, 4, 5] :=
  storeAsChunks_assemble_roundtrip c7Peers c7State "f" "file.bin"
    [1, 2, 3, 4, 5] 100 rfl (by decide)

end PigeonFS
